import Mathlib

/-!
# Verification of `zserge/metric` (metric.go)

A shallow embedding of the core of `metric.go` — counters, gauge-free parts
needed by the claims, streaming histograms, and the rolling time-window
("timeseries") engine — together with theorems settling the specification
claims.

Modelling conventions:

* Go `float64` values are modelled as `ℚ` (exact arithmetic; the claims under
  scrutiny are algorithmic, not about IEEE rounding).
* Go `time.Time` / `time.Duration` are modelled as `Int` nanoseconds, matching
  Go's `int64` nanosecond representation (`time.Second = 1e9` ns).
* Go integer division (`/` on `int64` / `time.Duration`) truncates toward
  zero, hence `Int.tdiv`.
* Fallible operations (Go panics: indexing an empty slice, `make` with a
  negative length) are modelled with `Option`.
-/

namespace Metric

/-! ## Histogram (`metric.go` lines 194-271)

`const maxBins = 100`, `type bin struct { value, count float64 }`,
`type histogram struct { bins []bin; total uint64 }`. -/

/-- `const maxBins = 100` -/
def maxBins : ℕ := 100

/-- `type bin struct { value float64; count float64 }` -/
structure Bin where
  value : ℚ
  count : ℚ
deriving DecidableEq, Repr

/-- `type histogram struct { bins []bin; total uint64 }` (the mutex is
concurrency control, not state). -/
structure Histogram where
  bins : List Bin
  total : ℕ
deriving DecidableEq, Repr

/-- The insertion scan of `histogram.Add` (lines 220-228): walk the bins in
order; on the first bin whose `value` exceeds `n`, splice a fresh
`bin{value: n, count: 1}` in front of it; if no bin exceeds `n`, append the
fresh bin at the end. (Note: a bin with `value == n` does *not* stop the
scan — the code compares with strict `>`.) -/
def binAdd (n : ℚ) : List Bin → List Bin
  | [] => [⟨n, 1⟩]
  | b :: rest => if b.value > n then ⟨n, 1⟩ :: b :: rest else b :: binAdd n rest

/-- The merged bin built in `histogram.trim` (lines 252-256): weight-weighted
average of the two values, sum of the two weights. -/
def mergedBin (a b : Bin) : Bin :=
  ⟨(a.value * a.count + b.value * b.count) / (a.count + b.count), a.count + b.count⟩

/-- The argmin scan of `histogram.trim` (lines 244-251): find the index
`i ∈ [1, len)` whose gap `bins[i].value - bins[i-1].value` is smallest,
first occurrence winning ties (`dv < d || j == 1`). `prev` is `bins[j-1]`,
`j` the current index, `d`/`best` the best gap and index so far. -/
def minGapAux (prev : Bin) : List Bin → ℕ → ℚ → ℕ → ℕ
  | [], _, _, best => best
  | b :: rest, j, d, best =>
    if b.value - prev.value < d ∨ j = 1 then
      minGapAux b rest (j + 1) (b.value - prev.value) j
    else
      minGapAux b rest (j + 1) d best

/-- Index selected by the `histogram.trim` gap scan (`d := 0; i := 0` before
the loop). -/
def minGapIdx : List Bin → ℕ
  | [] => 0
  | b :: rest => minGapAux b rest 1 0 0

/-- One `histogram.trim` merge step (lines 252-258): replace `bins[i-1]` and
`bins[i]` by their `mergedBin`
(`bins = append(bins[:i-1], bins[i:]...); bins[i-1] = merged`), expressed
structurally: `mergeAt i` replaces the elements at positions `i-1` and `i`. -/
def mergeAt : ℕ → List Bin → List Bin
  | _, [] => []
  | _, [b] => [b]
  | 0, bins => bins
  | 1, a :: b :: rest => mergedBin a b :: rest
  | n + 2, a :: rest => a :: mergeAt (n + 1) rest

/-- The `histogram.trim` loop body with explicit fuel (each merge shortens
the list by one, so `bins.length` iterations always suffice; the Go loop
runs while `len(h.bins) > maxBins`). -/
def trimFuel : ℕ → List Bin → List Bin
  | 0, bins => bins
  | fuel + 1, bins =>
    if maxBins < bins.length then trimFuel fuel (mergeAt (minGapIdx bins) bins)
    else bins

/-- `histogram.trim` (lines 242-260). -/
def histTrim (bins : List Bin) : List Bin := trimFuel bins.length bins

/-- The zero-value `histogram{}` (also the post-`Reset` state). -/
def hEmpty : Histogram := ⟨[], 0⟩

/-- `histogram.Reset` (lines 208-213): `h.bins = nil; h.total = 0`. -/
def hReset (_ : Histogram) : Histogram := hEmpty

/-- `histogram.Add` (lines 215-229): `h.total++`, insert the fresh bin via
the scan, then (`defer`) `h.trim()`. -/
def hAdd (n : ℚ) (h : Histogram) : Histogram :=
  { bins := histTrim (binAdd n h.bins), total := h.total + 1 }

/-- The scan loop of `histogram.quantile` (lines 263-270): subtract each
bin's weight from `count`, returning the first bin value at which the
remainder is `<= 0`; `0` if the bins run out. -/
def quantLoop : ℚ → List Bin → ℚ
  | _, [] => 0
  | c, b :: rest => if c - b.count ≤ 0 then b.value else quantLoop (c - b.count) rest

/-- `histogram.quantile` (lines 262-271): `count := q * float64(h.total)`,
then the scan. -/
def quantile (q : ℚ) (h : Histogram) : ℚ := quantLoop (q * (h.total : ℚ)) h.bins

/-- The mutating operations a histogram client can perform. -/
inductive HistOp where
  | add (n : ℚ)
  | reset
deriving DecidableEq, Repr

/-- Run a sequence of operations on the fresh (zero-value) histogram. -/
def runHist (ops : List HistOp) : Histogram :=
  ops.foldl (fun h op => match op with | .add n => hAdd n h | .reset => hReset h) hEmpty

/-! ### Histogram invariants -/

/-- Bin values are sorted (non-decreasing). -/
def binsSorted (l : List Bin) : Prop := l.Pairwise (fun a b => a.value ≤ b.value)

/-- Every bin carries strictly positive weight. -/
def binsPos (l : List Bin) : Prop := ∀ b ∈ l, 0 < b.count

/-- Total weight mass held by the bins. -/
def binsMass (l : List Bin) : ℚ := (l.map Bin.count).sum

/-- The invariant maintained by the histogram operations: sorted bins,
positive weights, weight mass equal to the observation counter, and the
bin-count cap. -/
def HInv (h : Histogram) : Prop :=
  binsSorted h.bins ∧ binsPos h.bins ∧ binsMass h.bins = (h.total : ℚ) ∧
    h.bins.length ≤ maxBins

/-! ## JSON values

A small model of the JSON documents produced by the `MarshalJSON` methods,
precise enough to talk about which fields a serialized form contains. -/

inductive Json where
  | num (q : ℚ)
  | str (s : String)
  | arr (elems : List Json)
  | obj (fields : List (String × Json))

/-- The field names of a serialized JSON object (top level). -/
def jsonKeys : Json → List String
  | .obj fields => fields.map Prod.fst
  | _ => []

/-- `counter.MarshalJSON` (lines 143-148): `{"type":"c","count":<value>}`.
The counter state is its running sum. -/
def counterMarshal (c : ℚ) : Json :=
  Json.obj [("type", Json.str "c"), ("count", Json.num c)]

/-! ## Time constants and the window-specification parser
(`newTimeseries`, lines 273-302)

Go `time.Duration` is an `int64` count of nanoseconds. -/

def timeSecond : Int := 1000000000

def timeMinute : Int := 60 * timeSecond

def timeHour : Int := 60 * timeMinute

/-- The `units` map of `newTimeseries` (lines 278-286); a rune absent from
the map yields the zero `time.Duration`. -/
def units (u : Char) : Int :=
  if u = 's' then timeSecond
  else if u = 'm' then timeMinute
  else if u = 'h' then timeHour
  else if u = 'd' then timeHour * 24
  else if u = 'w' then timeHour * 24 * 7
  else if u = 'M' then timeHour * 24 * 7 * 30
  else if u = 'y' then timeHour * 24 * 7 * 365
  else 0

/-- Numeric value of a run of decimal digit characters. -/
def digitsToNat (ds : List Char) : ℕ :=
  ds.foldl (fun a c => a * 10 + (c.toNat - 48)) 0

/-- Model of `fmt.Sscanf`'s `%d` verb: skip leading whitespace, accept an
optional sign followed by at least one decimal digit; `none` on failure. -/
def scanInt (cs : List Char) : Option (Int × List Char) :=
  let cs1 := cs.dropWhile (fun c => c.isWhitespace)
  match cs1 with
  | '-' :: rest =>
    if (rest.takeWhile (fun c => c.isDigit)).isEmpty then none
    else some (-(digitsToNat (rest.takeWhile (fun c => c.isDigit)) : Int),
      rest.dropWhile (fun c => c.isDigit))
  | '+' :: rest =>
    if (rest.takeWhile (fun c => c.isDigit)).isEmpty then none
    else some ((digitsToNat (rest.takeWhile (fun c => c.isDigit)) : Int),
      rest.dropWhile (fun c => c.isDigit))
  | _ =>
    if (cs1.takeWhile (fun c => c.isDigit)).isEmpty then none
    else some ((digitsToNat (cs1.takeWhile (fun c => c.isDigit)) : Int),
      cs1.dropWhile (fun c => c.isDigit))

/-- Model of `fmt.Sscanf`'s `%c` verb: consume exactly the next character. -/
def scanChar : List Char → Option (Char × List Char)
  | [] => none
  | c :: rest => some (c, rest)

/-- The zero value of Go's `rune`. -/
def charZero : Char := Char.ofNat 0

/-- `fmt.Sscanf(frame, "%d%c%d%c", &totalNum, &totalUnit, &intervalNum,
&intervalUnit)` (line 287): scanning stops at the first failing verb, and
the variables keep their zero values from there on. -/
def sscan4 (s : String) : Int × Char × Int × Char :=
  match scanInt s.toList with
  | none => (0, charZero, 0, charZero)
  | some (tn, r1) =>
    match scanChar r1 with
    | none => (tn, charZero, 0, charZero)
    | some (tu, r2) =>
      match scanInt r2 with
      | none => (tn, tu, 0, charZero)
      | some (inum, r3) =>
        match scanChar r3 with
        | none => (tn, tu, inum, charZero)
        | some (iu, _) => (tn, tu, inum, iu)

/-- The `interval` computed by `newTimeseries` (lines 288-291):
`units[intervalUnit] * intervalNum`, defaulting to one minute when zero. -/
def frameInterval (frame : String) : Int :=
  let p := sscan4 frame
  let interval := units p.2.2.2 * p.2.2.1
  if interval = 0 then timeMinute else interval

/-- The `totalDuration` computed by `newTimeseries` (lines 292-295):
`units[totalUnit] * totalNum`, defaulting to `interval * 15` when zero. -/
def frameTotal (frame : String) : Int :=
  let p := sscan4 frame
  let totalDuration := units p.2.1 * p.1
  if totalDuration = 0 then frameInterval frame * 15 else totalDuration

/-- The bucket count `n := int(totalDuration / interval)` (line 296); Go
`int64` division truncates toward zero. -/
def frameBuckets (frame : String) : Int :=
  (frameTotal frame).tdiv (frameInterval frame)

/-! ### Spec-side window-specification semantics

An independent rendering of the (amended) specification wording for the
window-specification grammar, to be compared with the code-derived
`frameInterval` / `frameBuckets`: units `s`=second, `m`=minute, `h`=hour,
`d`=24h, `w`=7 days, `M`=30 *weeks* (210 days), `y`=365 *weeks* (2555 days);
a missing or unparsable interval defaults to 1 minute, a missing or
unparsable total defaults to interval × 15, and the bucket count is the
toward-zero-truncated quotient total / interval, with no minimum. -/

/-- One day of nanoseconds (spec-side). -/
def specDay : Int := 86400 * 1000000000

/-- Spec-side unit table. -/
def specUnit (u : Char) : Int :=
  if u = 's' then 1000000000
  else if u = 'm' then 60 * 1000000000
  else if u = 'h' then 3600 * 1000000000
  else if u = 'd' then specDay
  else if u = 'w' then 7 * specDay
  else if u = 'M' then 210 * specDay
  else if u = 'y' then 2555 * specDay
  else 0

/-- Spec-side interval: `intervalNum × unit`, defaulting to one minute when
that product is zero (missing or unparsable interval). -/
def specInterval (frame : String) : Int :=
  let p := sscan4 frame
  if specUnit p.2.2.2 * p.2.2.1 = 0 then 60 * 1000000000
  else specUnit p.2.2.2 * p.2.2.1

/-- Spec-side total duration: `totalNum × unit`, defaulting to
`interval × 15` when that product is zero. -/
def specTotal (frame : String) : Int :=
  let p := sscan4 frame
  if specUnit p.2.1 * p.1 = 0 then specInterval frame * 15
  else specUnit p.2.1 * p.1

/-- Spec-side bucket count: truncated quotient, no minimum. -/
def specBuckets (frame : String) : Int :=
  (specTotal frame).tdiv (specInterval frame)

/-! ## The timeseries (Window) engine (lines 40-96) -/

/-- `type timeseries struct { now time.Time; interval time.Duration;
samples []Metric }`, over an abstract bucket-state type `σ`. (The Go struct
also declares a `size int` field, but nothing in the package ever assigns or
reads it, so it is omitted; the mutex is concurrency control, not state.)
`now` and `interval` are nanosecond counts. -/
structure Timeseries (σ : Type) where
  now : Int
  interval : Int
  samples : List σ
deriving DecidableEq, Repr

/-- `newTimeseries` (lines 273-302): parse the frame, compute interval and
bucket count, and allocate the bucket slice. `make([]Metric, n, n)` panics
when `n` is negative, hence `Option`. Each bucket starts as the
builder's fresh (zero) value `init`. The Go zero `time.Time` anchor is
represented as `0` (its absolute value is irrelevant: only differences of
rounded times are ever used). -/
def newTimeseries {σ : Type} (init : σ) (frame : String) : Option (Timeseries σ) :=
  let n := frameBuckets frame
  if n < 0 then none
  else some { now := 0, interval := frameInterval frame,
              samples := List.replicate n.toNat init }

/-- Go `Time.Round(d)` on nanosecond counts: for `d <= 0` the time is
unchanged; otherwise round to the nearest multiple of `d`, halves rounding
up (Go computes the remainder `r ∈ [0, d)` and compares `r+r` with `d`). -/
def goRound (t d : Int) : Int :=
  if d ≤ 0 then t
  else if t.emod d + t.emod d < d then t - t.emod d
  else t + (d - t.emod d)

/-- The tick count computed by `timeseries.roll` (line 56):
`int((t.Round(interval) - ts.now.Round(interval)) / interval)`. -/
def tsTicks {σ : Type} (t : Int) (ts : Timeseries σ) : Int :=
  (goRound t ts.interval - goRound ts.now ts.interval).tdiv ts.interval

/-- The body of the rotation loop in `timeseries.roll` (lines 65-72):
`tmp := samples[n-1]`, shift every element one position up, put `tmp` at
index `0`, and reset it. On a non-empty list this moves the reset last
element to the front. -/
def rotateOnce {σ : Type} (reset : σ → σ) (l : List σ) : List σ :=
  match l.getLast? with
  | none => l
  | some x => reset x :: l.dropLast

/-- `timeseries.Reset` (lines 48-52): reset every bucket. -/
def tsReset {σ : Type} (reset : σ → σ) (ts : Timeseries σ) : Timeseries σ :=
  { ts with samples := ts.samples.map reset }

/-- `timeseries.roll` (lines 54-74): refresh the anchor to `now`; if the
tick count is positive, either reset everything (tick count at least the
window length) or rotate that many times. -/
def tsRoll {σ : Type} (reset : σ → σ) (t : Int) (ts : Timeseries σ) : Timeseries σ :=
  if tsTicks t ts ≤ 0 then { ts with now := t }
  else if (ts.samples.length : Int) ≤ tsTicks t ts then
    { ts with now := t, samples := ts.samples.map reset }
  else
    { ts with
      now := t
      samples := (rotateOnce reset)^[(tsTicks t ts).toNat] ts.samples }

/-- `timeseries.Add` (lines 76-81): roll, then `ts.samples[0].Add(n)`.
Indexing `samples[0]` panics when the bucket slice is empty, hence
`Option`. `addf` is the bucket-kind `Add` already applied to the incoming
number. -/
def tsAdd {σ : Type} (reset addf : σ → σ) (t : Int) (ts : Timeseries σ) :
    Option (Timeseries σ) :=
  let ts1 := tsRoll reset t ts
  match ts1.samples with
  | [] => none
  | s :: rest => some { ts1 with samples := addf s :: rest }

/-- `timeseries.MarshalJSON` (lines 83-91): roll, then serialize
`{"interval": <seconds>, "samples": [...]}`. Returns the document together
with the post-roll state (serialization mutates the window). `mar` is the
bucket-kind `MarshalJSON`. -/
def tsMarshal {σ : Type} (mar : σ → Json) (reset : σ → σ) (t : Int)
    (ts : Timeseries σ) : Json × Timeseries σ :=
  let ts1 := tsRoll reset t ts
  (Json.obj [("interval", Json.num ((ts1.interval : ℚ) / (timeSecond : ℚ))),
             ("samples", Json.arr (ts1.samples.map mar))], ts1)

/-! ## The counter CAS loop (lines 134-142), as an interleaving model

`counter.Add` is a retry loop: atomically load the current value, compute
`old + n`, and compare-and-swap; on CAS failure start over. Each thread
performing `Add(1)` is modelled by a three-state machine: before its load
(`pending`), between its load and its CAS (`loaded old`), and finished
(`done`). A schedule (list of thread indices) picks which thread executes
its next atomic action; the CAS succeeds exactly when the loaded value
still equals the current value, and failure sends the thread back to
`pending` (the loop re-reads). Values are exact rationals, as everywhere
in this model. -/

inductive ThSt where
  | pending
  | loaded (old : ℚ)
  | done
deriving DecidableEq, Repr

/-- The shared counter plus every thread's position in its `Add(1)` loop. -/
structure CasState where
  val : ℚ
  threads : List ThSt
deriving DecidableEq, Repr

/-- One atomic action of thread `i` (load, successful CAS, or failed CAS);
an out-of-range index or a finished thread does nothing. -/
def casStep (s : CasState) (i : ℕ) : CasState :=
  match s.threads[i]? with
  | none => s
  | some ThSt.pending => { s with threads := s.threads.set i (ThSt.loaded s.val) }
  | some (ThSt.loaded old) =>
    if old = s.val then { val := old + 1, threads := s.threads.set i ThSt.done }
    else { s with threads := s.threads.set i ThSt.pending }
  | some ThSt.done => s

/-- Run a whole schedule of atomic actions. -/
def casRun (sched : List ℕ) (s : CasState) : CasState := sched.foldl casStep s

/-- A fresh counter with `k` threads each about to perform `Add(1)`. -/
def casInit (k : ℕ) : CasState := ⟨0, List.replicate k ThSt.pending⟩

/-- Whether a thread has completed its `Add(1)`. -/
def isDone : ThSt → Bool
  | ThSt.done => true
  | _ => false

/-- Number of threads whose `Add(1)` has completed. -/
def countDone (l : List ThSt) : ℕ := l.countP isDone

/-- The relation between the shared value and the thread states that the
CAS loop maintains: the counter equals the number of completed `Add(1)`s. -/
def CasInv (s : CasState) : Prop := s.val = (countDone s.threads : ℚ)

/-! ## Histogram lemmas -/

lemma mem_binAdd {n : ℚ} {l : List Bin} {x : Bin} (hx : x ∈ binAdd n l) :
    x = ⟨n, 1⟩ ∨ x ∈ l := by
  induction l with
  | nil =>
    left
    simpa [binAdd] using hx
  | cons b rest ih =>
    by_cases h : b.value > n
    · simp only [binAdd, if_pos h, List.mem_cons] at hx
      rcases hx with h1 | h2 | h3
      · exact Or.inl h1
      · exact Or.inr (by simp [h2])
      · exact Or.inr (by simp [h3])
    · simp only [binAdd, if_neg h, List.mem_cons] at hx
      rcases hx with h1 | h2
      · exact Or.inr (by simp [h1])
      · rcases ih h2 with h3 | h4
        · exact Or.inl h3
        · exact Or.inr (by simp [h4])

lemma binAdd_eq_takeWhile (n : ℚ) (l : List Bin) :
    binAdd n l = l.takeWhile (fun b => decide (b.value ≤ n)) ++
      ⟨n, 1⟩ :: l.dropWhile (fun b => decide (b.value ≤ n)) := by
  induction l with
  | nil => simp [binAdd]
  | cons b rest ih =>
    by_cases h : b.value > n
    · have hb : ¬ b.value ≤ n := not_le.mpr h
      simp [binAdd, h, List.takeWhile_cons, List.dropWhile_cons, hb]
    · have hb : b.value ≤ n := not_lt.mp h
      simp [binAdd, h, List.takeWhile_cons, List.dropWhile_cons, hb, ih]

lemma binAdd_sorted {n : ℚ} {l : List Bin} (hl : binsSorted l) :
    binsSorted (binAdd n l) := by
  induction l with
  | nil => simp [binAdd, binsSorted]
  | cons b rest ih =>
    rw [binsSorted, List.pairwise_cons] at hl
    obtain ⟨hb, hrest⟩ := hl
    by_cases h : b.value > n
    · rw [binAdd, if_pos h, binsSorted, List.pairwise_cons]
      refine ⟨?_, ?_⟩
      · intro y hy
        rcases List.mem_cons.mp hy with h1 | h2
        · simpa [h1] using le_of_lt h
        · exact le_trans (le_of_lt h) (hb y h2)
      · exact List.pairwise_cons.mpr ⟨hb, hrest⟩
    · rw [binAdd, if_neg h, binsSorted, List.pairwise_cons]
      refine ⟨?_, ih hrest⟩
      intro y hy
      rcases mem_binAdd hy with h1 | h2
      · simpa [h1] using not_lt.mp h
      · exact hb y h2

lemma binAdd_mass (n : ℚ) (l : List Bin) : binsMass (binAdd n l) = binsMass l + 1 := by
  induction l with
  | nil => simp [binAdd, binsMass]
  | cons b rest ih =>
    by_cases h : b.value > n
    · simp [binAdd, h, binsMass]
      ring
    · simp only [binAdd, if_neg h, binsMass, List.map_cons, List.sum_cons] at ih ⊢
      rw [ih]
      ring

lemma binAdd_pos {n : ℚ} {l : List Bin} (hl : binsPos l) : binsPos (binAdd n l) := by
  intro x hx
  rcases mem_binAdd hx with h1 | h2
  · simp [h1]
  · exact hl x h2

lemma binAdd_length (n : ℚ) (l : List Bin) : (binAdd n l).length = l.length + 1 := by
  induction l with
  | nil => simp [binAdd]
  | cons b rest ih =>
    by_cases h : b.value > n
    · simp [binAdd, h]
    · simp [binAdd, h, ih]

/-! ### `mergedBin` bounds -/

lemma mergedBin_count (a b : Bin) : (mergedBin a b).count = a.count + b.count := rfl

lemma mergedBin_count_pos {a b : Bin} (ha : 0 < a.count) (hb : 0 < b.count) :
    0 < (mergedBin a b).count := by
  simp only [mergedBin_count]
  positivity

lemma le_mergedBin_value {a b : Bin} {c : ℚ} (ha : 0 < a.count) (hb : 0 < b.count)
    (h1 : c ≤ a.value) (h2 : c ≤ b.value) : c ≤ (mergedBin a b).value := by
  have hs : 0 < a.count + b.count := by positivity
  rw [mergedBin, le_div_iff₀ hs]
  nlinarith

lemma mergedBin_value_le {a b : Bin} {c : ℚ} (ha : 0 < a.count) (hb : 0 < b.count)
    (h1 : a.value ≤ c) (h2 : b.value ≤ c) : (mergedBin a b).value ≤ c := by
  have hs : 0 < a.count + b.count := by positivity
  rw [mergedBin, div_le_iff₀ hs]
  nlinarith

/-! ### `mergeAt` preservation lemmas -/

lemma mergeAt_mass (i : ℕ) (l : List Bin) : binsMass (mergeAt i l) = binsMass l := by
  induction l generalizing i with
  | nil => simp [mergeAt]
  | cons a rest ih =>
    match i, rest with
    | _, [] => simp [mergeAt]
    | 0, b :: rest' => simp [mergeAt]
    | 1, b :: rest' =>
      simp [mergeAt, binsMass, mergedBin_count]
      ring
    | n + 2, b :: rest' =>
      have := ih (n + 1)
      simp only [mergeAt, binsMass, List.map_cons, List.sum_cons] at this ⊢
      rw [this]

lemma mergeAt_pos {i : ℕ} {l : List Bin} (hl : binsPos l) : binsPos (mergeAt i l) := by
  induction l generalizing i with
  | nil => simpa [mergeAt] using hl
  | cons a rest ih =>
    match i, rest with
    | _, [] => simpa [mergeAt] using hl
    | 0, b :: rest' => simpa [mergeAt] using hl
    | 1, b :: rest' =>
      intro x hx
      rcases List.mem_cons.mp hx with h1 | h2
      · subst h1
        exact mergedBin_count_pos (hl a (by simp)) (hl b (by simp))
      · exact hl x (by simp [h2])
    | n + 2, b :: rest' =>
      intro x hx
      rcases List.mem_cons.mp hx with h1 | h2
      · exact h1 ▸ hl a (by simp)
      · have hrest : binsPos (b :: rest') := fun y hy => hl y (by simp [hy])
        exact ih hrest x h2

lemma mergeAt_lb {i : ℕ} {l : List Bin} {c : ℚ} (hpos : binsPos l)
    (hlb : ∀ y ∈ l, c ≤ y.value) : ∀ y ∈ mergeAt i l, c ≤ y.value := by
  induction l generalizing i with
  | nil => simp [mergeAt]
  | cons a rest ih =>
    match i, rest with
    | _, [] => simpa [mergeAt] using hlb
    | 0, b :: rest' => simpa [mergeAt] using hlb
    | 1, b :: rest' =>
      intro y hy
      rcases List.mem_cons.mp hy with h1 | h2
      · subst h1
        exact le_mergedBin_value (hpos a (by simp)) (hpos b (by simp))
          (hlb a (by simp)) (hlb b (by simp))
      · exact hlb y (by simp [h2])
    | n + 2, b :: rest' =>
      intro y hy
      rcases List.mem_cons.mp hy with h1 | h2
      · exact h1 ▸ hlb a (by simp)
      · exact ih (fun z hz => hpos z (by simp [hz]))
          (fun z hz => hlb z (by simp [hz])) y h2

lemma mergeAt_sorted {i : ℕ} {l : List Bin} (hpos : binsPos l) (hl : binsSorted l) :
    binsSorted (mergeAt i l) := by
  induction l generalizing i with
  | nil => simpa [mergeAt] using hl
  | cons a rest ih =>
    match i, rest with
    | _, [] => simpa [mergeAt] using hl
    | 0, b :: rest' => simpa [mergeAt] using hl
    | 1, b :: rest' =>
      rw [binsSorted, List.pairwise_cons] at hl
      obtain ⟨ha, hl'⟩ := hl
      rw [List.pairwise_cons] at hl'
      obtain ⟨hb, hrest'⟩ := hl'
      show binsSorted (mergedBin a b :: rest')
      rw [binsSorted, List.pairwise_cons]
      refine ⟨?_, hrest'⟩
      intro y hy
      exact le_trans (mergedBin_value_le (hpos a (by simp)) (hpos b (by simp))
        (ha b (by simp)) le_rfl) (hb y hy)
    | n + 2, b :: rest' =>
      rw [binsSorted, List.pairwise_cons] at hl
      obtain ⟨ha, hl'⟩ := hl
      show binsSorted (a :: mergeAt (n + 1) (b :: rest'))
      rw [binsSorted, List.pairwise_cons]
      refine ⟨?_, ih (fun z hz => hpos z (by simp [hz])) hl'⟩
      intro y hy
      exact mergeAt_lb (fun z hz => hpos z (by simp [hz])) ha y hy

lemma mergeAt_length {i : ℕ} {l : List Bin} (h1 : 1 ≤ i) (h2 : i < l.length) :
    (mergeAt i l).length + 1 = l.length := by
  induction l generalizing i with
  | nil => simp at h2
  | cons a rest ih =>
    match i, rest with
    | i, [] => simp at h2; omega
    | 0, b :: rest' => omega
    | 1, b :: rest' => simp [mergeAt]
    | n + 2, b :: rest' =>
      have h2' : n + 1 < (b :: rest').length := by
        simp only [List.length_cons] at h2 ⊢
        omega
      have hrec := ih (i := n + 1) (by omega) h2'
      show (a :: mergeAt (n + 1) (b :: rest')).length + 1 = (a :: b :: rest').length
      simp only [List.length_cons] at hrec ⊢
      omega

/-! ### Bounds on the gap-scan index -/

lemma minGapAux_lt {l : List Bin} {prev : Bin} {j : ℕ} {d : ℚ} {best : ℕ}
    (h : best < j) : minGapAux prev l j d best < j + l.length := by
  induction l generalizing prev j d best with
  | nil => simpa [minGapAux] using h
  | cons b rest ih =>
    rw [minGapAux]
    split
    · have := @ih b (j + 1) (b.value - prev.value) j (by omega)
      simp only [List.length_cons]
      omega
    · have := @ih b (j + 1) d best (by omega)
      simp only [List.length_cons]
      omega

lemma le_minGapAux {l : List Bin} {prev : Bin} {j : ℕ} {d : ℚ} {best m : ℕ}
    (hb : m ≤ best) (hj : m ≤ j) : m ≤ minGapAux prev l j d best := by
  induction l generalizing prev j d best with
  | nil => simpa [minGapAux] using hb
  | cons b rest ih =>
    rw [minGapAux]
    split
    · exact ih hj (by omega)
    · exact ih hb (by omega)

lemma minGapIdx_bounds {l : List Bin} (h : 2 ≤ l.length) :
    1 ≤ minGapIdx l ∧ minGapIdx l < l.length := by
  match l, h with
  | a :: b :: rest, _ =>
    have h1 : minGapIdx (a :: b :: rest) = minGapAux b rest 2 (b.value - a.value) 1 := by
      rw [minGapIdx, minGapAux, if_pos (Or.inr rfl)]
    constructor
    · rw [h1]
      exact le_minGapAux le_rfl (by omega)
    · rw [h1]
      have := @minGapAux_lt rest b 2 (b.value - a.value) 1 (by omega)
      simp only [List.length_cons]
      omega

/-! ### `trimFuel` preservation and the bin cap -/

lemma trimFuel_mass (fuel : ℕ) (l : List Bin) : binsMass (trimFuel fuel l) = binsMass l := by
  induction fuel generalizing l with
  | zero => rfl
  | succ fuel ih =>
    rw [trimFuel]
    split
    · rw [ih, mergeAt_mass]
    · rfl

lemma trimFuel_pos {fuel : ℕ} {l : List Bin} (hl : binsPos l) :
    binsPos (trimFuel fuel l) := by
  induction fuel generalizing l with
  | zero => exact hl
  | succ fuel ih =>
    rw [trimFuel]
    split
    · exact ih (mergeAt_pos hl)
    · exact hl

lemma trimFuel_sorted {fuel : ℕ} {l : List Bin} (hpos : binsPos l)
    (hl : binsSorted l) : binsSorted (trimFuel fuel l) := by
  induction fuel generalizing l with
  | zero => exact hl
  | succ fuel ih =>
    rw [trimFuel]
    split
    · exact ih (mergeAt_pos hpos) (mergeAt_sorted hpos hl)
    · exact hl

lemma trimFuel_length {fuel : ℕ} {l : List Bin} (h : l.length ≤ maxBins + fuel) :
    (trimFuel fuel l).length ≤ maxBins := by
  induction fuel generalizing l with
  | zero => simpa [trimFuel] using h
  | succ fuel ih =>
    rw [trimFuel]
    split
    · rename_i hlen
      have h2 : 2 ≤ l.length := by
        have : (0 : ℕ) < maxBins := by norm_num [maxBins]
        omega
      obtain ⟨hi1, hi2⟩ := minGapIdx_bounds h2
      have hml := mergeAt_length hi1 hi2
      exact ih (by omega)
    · omega

lemma histTrim_mass (l : List Bin) : binsMass (histTrim l) = binsMass l :=
  trimFuel_mass _ _

lemma histTrim_pos {l : List Bin} (hl : binsPos l) : binsPos (histTrim l) :=
  trimFuel_pos hl

lemma histTrim_sorted {l : List Bin} (hpos : binsPos l) (hl : binsSorted l) :
    binsSorted (histTrim l) :=
  trimFuel_sorted hpos hl

lemma histTrim_length (l : List Bin) : (histTrim l).length ≤ maxBins :=
  trimFuel_length (by omega)

/-! ### The invariant holds in every reachable histogram state -/

lemma hInv_empty : HInv hEmpty := by
  refine ⟨?_, ?_, ?_, ?_⟩ <;> simp [hEmpty, binsSorted, binsPos, binsMass, maxBins]

lemma hInv_add {h : Histogram} (hinv : HInv h) (n : ℚ) : HInv (hAdd n h) := by
  obtain ⟨hs, hp, hm, _⟩ := hinv
  refine ⟨?_, ?_, ?_, ?_⟩
  · exact histTrim_sorted (binAdd_pos hp) (binAdd_sorted hs)
  · exact histTrim_pos (binAdd_pos hp)
  · show binsMass (histTrim (binAdd n h.bins)) = ((h.total + 1 : ℕ) : ℚ)
    rw [histTrim_mass, binAdd_mass, hm]
    push_cast
    ring
  · exact histTrim_length _

lemma hInv_reset (h : Histogram) : HInv (hReset h) := hInv_empty

lemma runHist_inv (ops : List HistOp) : HInv (runHist ops) := by
  suffices h : ∀ (ops : List HistOp) (h0 : Histogram), HInv h0 →
      HInv (ops.foldl
        (fun h op => match op with | .add n => hAdd n h | .reset => hReset h) h0) by
    exact h ops hEmpty hInv_empty
  intro ops
  induction ops with
  | nil => exact fun h0 hh => hh
  | cons op rest ih =>
    intro h0 hh
    rw [List.foldl_cons]
    refine ih _ ?_
    match op with
    | .add n => exact hInv_add hh n
    | .reset => exact hInv_reset h0

/-! ### Quantile scan lemmas -/

/-- When the target mass does not exceed the total mass, the scan returns the
value of one of the bins (it cannot fall off the end). -/
lemma quantLoop_mem {l : List Bin} {c : ℚ} (hne : l ≠ []) (hc : c ≤ binsMass l) :
    quantLoop c l ∈ l.map Bin.value := by
  induction l generalizing c with
  | nil => exact absurd rfl hne
  | cons b rest ih =>
    rw [quantLoop]
    split
    · simp
    · rename_i hgt
      have hrest : rest ≠ [] := by
        intro hnil
        rw [hnil] at hc
        simp only [binsMass, List.map_cons, List.map_nil, List.sum_cons,
          List.sum_nil, add_zero] at hc
        exact hgt (by linarith)
      have hc' : c - b.count ≤ binsMass rest := by
        simp only [binsMass, List.map_cons, List.sum_cons] at hc
        simp only [binsMass]
        linarith
      simpa using Or.inr (by simpa using ih hrest hc')

/-- Monotonicity of the scan in the target mass, over sorted positive bins,
provided the larger target still fits within the total mass. -/
lemma quantLoop_mono {l : List Bin} {c₁ c₂ : ℚ} (hs : binsSorted l) (hp : binsPos l)
    (h12 : c₁ ≤ c₂) (h2 : c₂ ≤ binsMass l) : quantLoop c₁ l ≤ quantLoop c₂ l := by
  induction l generalizing c₁ c₂ with
  | nil => simp [quantLoop]
  | cons b rest ih =>
    rw [binsSorted, List.pairwise_cons] at hs
    obtain ⟨hb, hrest⟩ := hs
    by_cases hc2 : c₂ - b.count ≤ 0
    · have hc1 : c₁ - b.count ≤ 0 := by linarith
      simp only [quantLoop]
      rw [if_pos hc1, if_pos hc2]
    · simp only [quantLoop]
      rw [if_neg hc2]
      have hrestne : rest ≠ [] := by
        intro hnil
        rw [hnil] at h2
        simp only [binsMass, List.map_cons, List.map_nil, List.sum_cons,
          List.sum_nil, add_zero] at h2
        exact hc2 (by linarith)
      have hc2' : c₂ - b.count ≤ binsMass rest := by
        simp only [binsMass, List.map_cons, List.sum_cons] at h2
        simp only [binsMass]
        linarith
      by_cases hc1 : c₁ - b.count ≤ 0
      · rw [if_pos hc1]
        have hmem := quantLoop_mem hrestne hc2'
        rw [List.mem_map] at hmem
        obtain ⟨y, hy, hyv⟩ := hmem
        rw [← hyv]
        exact hb y hy
      · rw [if_neg hc1]
        exact ih hrest (fun y hy => hp y (by simp [hy])) (by linarith) hc2'

/-! ## Rotation and roll lemmas -/

lemma rotateOnce_length {σ : Type} (reset : σ → σ) (l : List σ) :
    (rotateOnce reset l).length = l.length := by
  cases l with
  | nil => rfl
  | cons a t =>
    rw [rotateOnce, List.getLast?_eq_getLast _ (by simp)]
    simp

lemma rotate_iter_length {σ : Type} (reset : σ → σ) (k : ℕ) (l : List σ) :
    ((rotateOnce reset)^[k] l).length = l.length := by
  induction k with
  | zero => rfl
  | succ k ih => rw [Function.iterate_succ_apply', rotateOnce_length, ih]

/-- Closed form for `k` rotations, `k` within the window: the last `k`
buckets move to the front (reversed into age order) reset, the rest shift
down. -/
lemma rotate_iter {σ : Type} (reset : σ → σ) (k : ℕ) (l : List σ)
    (hk : k < l.length) :
    (rotateOnce reset)^[k] l =
      (l.drop (l.length - k)).map reset ++ l.take (l.length - k) := by
  induction k with
  | zero => simp
  | succ k ih =>
    have hk' : k < l.length := Nat.lt_of_succ_lt hk
    have hm : l.length - k - 1 < l.length := by omega
    have hstep : l.length - k = (l.length - k - 1) + 1 := by omega
    rw [Function.iterate_succ_apply', ih hk']
    rw [hstep, List.take_succ, List.getElem?_eq_getElem hm]
    rw [show l.length - (k + 1) = l.length - k - 1 from by omega]
    rw [List.drop_eq_getElem_cons hm]
    simp only [Option.toList_some]
    rw [← List.append_assoc]
    rw [rotateOnce, List.getLast?_concat, List.dropLast_concat]
    simp only [List.map_cons, List.cons_append]

lemma tsRoll_now {σ : Type} (reset : σ → σ) (t : Int) (ts : Timeseries σ) :
    (tsRoll reset t ts).now = t := by
  rw [tsRoll]
  split
  · rfl
  · split <;> rfl

lemma tsRoll_interval {σ : Type} (reset : σ → σ) (t : Int) (ts : Timeseries σ) :
    (tsRoll reset t ts).interval = ts.interval := by
  rw [tsRoll]
  split
  · rfl
  · split <;> rfl

lemma tsRoll_length {σ : Type} (reset : σ → σ) (t : Int) (ts : Timeseries σ) :
    (tsRoll reset t ts).samples.length = ts.samples.length := by
  rw [tsRoll]
  split
  · rfl
  · split
    · simp
    · simp [rotate_iter_length]

lemma tsTicks_of_now_eq {σ : Type} (t : Int) (ts : Timeseries σ) (h : ts.now = t) :
    tsTicks t ts = 0 := by
  rw [tsTicks, h, sub_self, Int.zero_tdiv]

/-- Rolling twice at the same instant is the same as rolling once: the
second roll sees zero elapsed ticks and only re-writes the anchor it
already wrote. -/
lemma tsRoll_idem {σ : Type} (reset : σ → σ) (t : Int) (ts : Timeseries σ) :
    tsRoll reset t (tsRoll reset t ts) = tsRoll reset t ts := by
  have hn : (tsRoll reset t ts).now = t := tsRoll_now reset t ts
  generalize tsRoll reset t ts = u at hn ⊢
  have h0 : tsTicks t u = 0 := tsTicks_of_now_eq t u hn
  rw [tsRoll, h0]
  rw [if_pos (le_refl 0)]
  cases u
  simp only at hn
  simp [hn]

/-! ## CAS-loop invariant lemmas -/

lemma countP_set_same {α : Type} (p : α → Bool) {l : List α} {i : ℕ} {a : α}
    (b : α) (h : l[i]? = some a) (hpb : p a = p b) :
    (l.set i b).countP p = l.countP p := by
  induction l generalizing i with
  | nil => simp at h
  | cons x t ih =>
    cases i with
    | zero =>
      simp only [List.getElem?_cons_zero, Option.some_inj] at h
      subst h
      simp [List.countP_cons, hpb]
    | succ i =>
      simp only [List.getElem?_cons_succ] at h
      simp [List.countP_cons, ih h]

lemma countP_set_incr {α : Type} (p : α → Bool) {l : List α} {i : ℕ} {a : α}
    (b : α) (h : l[i]? = some a) (hpa : p a = false) (hpb : p b = true) :
    (l.set i b).countP p = l.countP p + 1 := by
  induction l generalizing i with
  | nil => simp at h
  | cons x t ih =>
    cases i with
    | zero =>
      simp only [List.getElem?_cons_zero, Option.some_inj] at h
      subst h
      simp [List.countP_cons, hpa, hpb]
    | succ i =>
      simp only [List.getElem?_cons_succ] at h
      have hset : (x :: t).set (i + 1) b = x :: t.set i b := rfl
      rw [hset, List.countP_cons, List.countP_cons, ih h]
      ring

lemma casStep_threads_length (s : CasState) (i : ℕ) :
    (casStep s i).threads.length = s.threads.length := by
  cases h : s.threads[i]? with
  | none => simp [casStep, h]
  | some th =>
    cases th with
    | pending => simp [casStep, h]
    | loaded old =>
      by_cases hv : old = s.val
      · simp [casStep, h, hv]
      · simp [casStep, h, hv]
    | done => simp [casStep, h]

lemma casStep_inv {s : CasState} (hs : CasInv s) (i : ℕ) : CasInv (casStep s i) := by
  cases h : s.threads[i]? with
  | none =>
    simpa [casStep, h] using hs
  | some th =>
    cases th with
    | pending =>
      simp only [casStep, h]
      show s.val = (countDone (s.threads.set i (ThSt.loaded s.val)) : ℚ)
      rw [countDone, countP_set_same isDone (ThSt.loaded s.val) h rfl]
      exact hs
    | loaded old =>
      by_cases hv : old = s.val
      · simp only [casStep, h, if_pos hv]
        show old + 1 = (countDone (s.threads.set i ThSt.done) : ℚ)
        rw [countDone, countP_set_incr isDone ThSt.done h rfl rfl]
        rw [hv, hs, countDone]
        push_cast
        ring
      · simp only [casStep, h, if_neg hv]
        show s.val = (countDone (s.threads.set i ThSt.pending) : ℚ)
        rw [countDone, countP_set_same isDone ThSt.pending h rfl]
        exact hs
    | done =>
      simpa [casStep, h] using hs

lemma casRun_inv {s : CasState} (hs : CasInv s) (sched : List ℕ) :
    CasInv (casRun sched s) := by
  induction sched generalizing s with
  | nil => exact hs
  | cons i rest ih =>
    rw [casRun, List.foldl_cons]
    exact ih (casStep_inv hs i)

lemma casRun_threads_length (sched : List ℕ) (s : CasState) :
    (casRun sched s).threads.length = s.threads.length := by
  induction sched generalizing s with
  | nil => rfl
  | cons i rest ih =>
    rw [casRun, List.foldl_cons]
    rw [show (List.foldl casStep (casStep s i) rest) = casRun rest (casStep s i) from rfl]
    rw [ih, casStep_threads_length]

lemma countDone_replicate_pending (k : ℕ) :
    countDone (List.replicate k ThSt.pending) = 0 := by
  induction k with
  | zero => rfl
  | succ k ih =>
    rw [countDone] at ih ⊢
    rw [List.replicate_succ, List.countP_cons, ih]
    rfl

lemma casInit_inv (k : ℕ) : CasInv (casInit k) := by
  show (0 : ℚ) = (countDone (List.replicate k ThSt.pending) : ℚ)
  rw [countDone_replicate_pending]
  norm_num

/-! ## Spec-side parse comparison lemmas -/

lemma units_eq_specUnit : units = specUnit := by
  funext c
  rw [units, specUnit]
  split_ifs <;> norm_num [timeSecond, timeMinute, timeHour, specDay]

lemma frameInterval_eq_spec (frame : String) :
    frameInterval frame = specInterval frame := by
  rw [frameInterval, specInterval, units_eq_specUnit]
  have : timeMinute = 60 * 1000000000 := by norm_num [timeMinute, timeSecond]
  rw [this]

lemma frameTotal_eq_spec (frame : String) : frameTotal frame = specTotal frame := by
  rw [frameTotal, specTotal, units_eq_specUnit, frameInterval_eq_spec]

lemma frameBuckets_eq_spec (frame : String) :
    frameBuckets frame = specBuckets frame := by
  rw [frameBuckets, specBuckets, frameTotal_eq_spec, frameInterval_eq_spec]

/-! ## Claim theorems -/

/-- C1 (code bug): the window snapshot produced by `timeseries.MarshalJSON`
contains only the `interval` and `samples` fields — there is no `total`
field at all (and the package has no `Merge` operation to build one), even
though the repository's own `TestCounterTimeline` asserts a `total` field
in exactly this scenario (a counter window `"3s1s"`). Evaluated here on
that window: the serialized keys are exactly `interval` and `samples`. -/
theorem window_snapshot_has_no_total_field :
    (newTimeseries (0 : ℚ) "3s1s").map
        (fun ts => jsonKeys (tsMarshal counterMarshal (fun _ => 0) 0 ts).1) =
      some ["interval", "samples"] ∧
    "total" ∉ (["interval", "samples"] : List String) := by
  constructor
  · rfl
  · decide

/-- C2 (counterexample): adding the same value twice does *not* increment
the existing bin's weight — `histogram.Add` always inserts a fresh bin, so
two `Add(5)` calls leave two bins of value `5` and weight `1` (not one bin
of weight `2`), and bin values are not strictly increasing. -/
theorem histogram_add_equal_value_counterexample :
    (runHist [HistOp.add 5, HistOp.add 5]).bins = [⟨5, 1⟩, ⟨5, 1⟩] ∧
      (runHist [HistOp.add 5, HistOp.add 5]).bins ≠ [⟨5, 2⟩] := by
  constructor <;> decide

/-- C2 (amended): `Add(n)` always inserts a new bin `(n, 1)` after the bins
whose value is `≤ n` and before the first bin whose value exceeds `n`
(equal values are not coalesced, so duplicates can occur), increments
`total` by 1, and then compacts. -/
theorem histogram_add_inserts_new_bin (n : ℚ) (h : Histogram) :
    (hAdd n h).total = h.total + 1 ∧
      (hAdd n h).bins =
        histTrim (h.bins.takeWhile (fun b => decide (b.value ≤ n)) ++
          ⟨n, 1⟩ :: h.bins.dropWhile (fun b => decide (b.value ≤ n))) := by
  refine ⟨rfl, ?_⟩
  rw [hAdd, binAdd_eq_takeWhile]

/-- C3: after any sequence of `Add` and `Reset` calls, the sum of the bin
weights equals the `total` observation counter, and the bin count never
exceeds `maxBins = 100`. -/
theorem histogram_mass_conservation_and_cap (ops : List HistOp) :
    binsMass (runHist ops).bins = ((runHist ops).total : ℚ) ∧
      (runHist ops).bins.length ≤ maxBins := by
  obtain ⟨_, _, hm, hc⟩ := runHist_inv ops
  exact ⟨hm, hc⟩

/-- C10: after any sequence of `Add` and `Reset` calls, the bin list is
sorted non-decreasingly by value (duplicates allowed) and every bin's
weight is strictly positive. -/
theorem histogram_bins_sorted_and_positive (ops : List HistOp) :
    binsSorted (runHist ops).bins ∧ ∀ b ∈ (runHist ops).bins, 0 < b.count := by
  obtain ⟨hs, hp, _, _⟩ := runHist_inv ops
  exact ⟨hs, hp⟩

/-- Witness for C10 at a concrete state: the bin `(1, 1)` is a member of
the bins after `Add 2; Add 1`, and its weight is positive. -/
theorem histogram_bins_sorted_and_positive_witness :
    (⟨1, 1⟩ : Bin) ∈ (runHist [HistOp.add 2, HistOp.add 1]).bins ∧
      0 < (⟨1, 1⟩ : Bin).count :=
  ⟨by decide,
    (histogram_bins_sorted_and_positive [HistOp.add 2, HistOp.add 1]).2 ⟨1, 1⟩
      (by decide)⟩

/-- C7 (counterexample): quantile monotonicity fails for arguments above 1:
on the reachable state after `Add 5`, `quantile 1 = 5` but `quantile 2 = 0`
(the scan runs off the end and returns 0), so `q1 ≤ q2` does not imply
`quantile q1 ≤ quantile q2` in general. -/
theorem quantile_monotonicity_counterexample :
    (1 : ℚ) ≤ 2 ∧
      ¬ quantile 1 (runHist [HistOp.add 5]) ≤ quantile 2 (runHist [HistOp.add 5]) := by
  have hst : runHist [HistOp.add 5] = ⟨[⟨5, 1⟩], 1⟩ := by decide
  refine ⟨by norm_num, ?_⟩
  rw [hst, quantile, quantile]
  norm_num [quantLoop]

/-- C7 (amended): on every reachable histogram state, `quantile` is
monotone for arguments `q1 ≤ q2` with `q2 ≤ 1` (arguments above 1 ask for
more mass than exists and fall back to 0). -/
theorem quantile_monotone_of_le_one (ops : List HistOp) (q1 q2 : ℚ)
    (h12 : q1 ≤ q2) (h2 : q2 ≤ 1) :
    quantile q1 (runHist ops) ≤ quantile q2 (runHist ops) := by
  obtain ⟨hs, hp, hm, _⟩ := runHist_inv ops
  rw [quantile, quantile]
  apply quantLoop_mono hs hp
  · exact mul_le_mul_of_nonneg_right h12 (by positivity)
  · rw [hm]
    calc q2 * ((runHist ops).total : ℚ)
        ≤ 1 * ((runHist ops).total : ℚ) :=
          mul_le_mul_of_nonneg_right h2 (by positivity)
      _ = ((runHist ops).total : ℚ) := one_mul _

/-- Witness for C7 (amended) at a concrete state and concrete quantile
arguments. -/
theorem quantile_monotone_of_le_one_witness :
    (0 : ℚ) ≤ 1 ∧ (1 : ℚ) ≤ 1 ∧
      quantile 0 (runHist [HistOp.add 1, HistOp.add 2]) ≤
        quantile 1 (runHist [HistOp.add 1, HistOp.add 2]) :=
  ⟨by norm_num, le_refl 1,
    quantile_monotone_of_le_one [HistOp.add 1, HistOp.add 2] 0 1 (by norm_num)
      (le_refl 1)⟩

/-- C4: a roll with tick count `k = tsTicks` keeps the bucket array length;
if `k` is at least the window length `N` every bucket is reset; and if
`0 < k < N`, the first `k` positions hold the former last `k` buckets
(reset, the old position `N-k+i` landing at position `i`) while every other
bucket shifts `k` positions older (`position i` holds the former
`position i-k`). -/
theorem window_roll_behavior (σ : Type) (reset : σ → σ) (t : Int)
    (ts : Timeseries σ) :
    (tsRoll reset t ts).samples.length = ts.samples.length ∧
    ((ts.samples.length : Int) ≤ tsTicks t ts →
      (tsRoll reset t ts).samples = ts.samples.map reset) ∧
    (0 < tsTicks t ts → tsTicks t ts < (ts.samples.length : Int) →
      (∀ i : ℕ, i < (tsTicks t ts).toNat →
        (tsRoll reset t ts).samples[i]? =
          (ts.samples[ts.samples.length - (tsTicks t ts).toNat + i]?).map reset) ∧
      (∀ i : ℕ, (tsTicks t ts).toNat ≤ i → i < ts.samples.length →
        (tsRoll reset t ts).samples[i]? = ts.samples[i - (tsTicks t ts).toNat]?)) := by
  refine ⟨tsRoll_length reset t ts, ?_, ?_⟩
  · intro hnk
    rw [tsRoll]
    by_cases h1 : tsTicks t ts ≤ 0
    · rw [if_pos h1]
      have hnil : ts.samples = [] := List.eq_nil_of_length_eq_zero (by omega)
      rw [hnil]
      rfl
    · rw [if_neg h1, if_pos hnk]
  · intro hk0 hkn
    have hKlt : (tsTicks t ts).toNat < ts.samples.length := by omega
    have hrw : (tsRoll reset t ts).samples =
        (ts.samples.drop (ts.samples.length - (tsTicks t ts).toNat)).map reset ++
          ts.samples.take (ts.samples.length - (tsTicks t ts).toNat) := by
      rw [tsRoll, if_neg (by omega), if_neg (by omega)]
      exact rotate_iter reset _ _ hKlt
    have hAlen : ((ts.samples.drop
        (ts.samples.length - (tsTicks t ts).toNat)).map reset).length =
        (tsTicks t ts).toNat := by
      rw [List.length_map, List.length_drop]
      omega
    constructor
    · intro i hi
      rw [hrw, List.getElem?_append_left (by omega), List.getElem?_map,
        List.getElem?_drop]
    · intro i hik hin
      rw [hrw, List.getElem?_append_right (by omega), hAlen,
        List.getElem?_take_of_lt (by omega)]

/-- Witness for C4: a three-bucket window with interval 1 rolled one tick
ahead; bucket 0 becomes the reset former bucket 2, bucket 1 the former
bucket 0. -/
theorem window_roll_behavior_witness :
    (0 : Int) < tsTicks 1 (⟨0, 1, [10, 20, 30]⟩ : Timeseries ℚ) ∧
    tsTicks 1 (⟨0, 1, [10, 20, 30]⟩ : Timeseries ℚ) < 3 ∧
    (tsRoll (fun _ => (0 : ℚ)) 1 ⟨0, 1, [10, 20, 30]⟩).samples[0]? =
      (([10, 20, 30] : List ℚ)[3 - (tsTicks 1 (⟨0, 1, [10, 20, 30]⟩ :
        Timeseries ℚ)).toNat + 0]?).map (fun _ => (0 : ℚ)) ∧
    (tsRoll (fun _ => (0 : ℚ)) 1 ⟨0, 1, [10, 20, 30]⟩).samples[1]? =
      ([10, 20, 30] : List ℚ)[1 - (tsTicks 1 (⟨0, 1, [10, 20, 30]⟩ :
        Timeseries ℚ)).toNat]? := by
  have h := window_roll_behavior ℚ (fun _ => (0 : ℚ)) 1 ⟨0, 1, [10, 20, 30]⟩
  have hk : tsTicks 1 (⟨0, 1, [10, 20, 30]⟩ : Timeseries ℚ) = 1 := by decide
  have h3 := h.2.2 (by rw [hk]; norm_num) (by rw [hk]; norm_num)
  exact ⟨by rw [hk]; norm_num, by rw [hk]; norm_num,
    h3.1 0 (by rw [hk]; norm_num), h3.2 1 (by rw [hk]; norm_num) (by norm_num)⟩

/-- C5 (counterexample): the unit table multiplies `M` and `y` by an extra
factor of 7 (weeks instead of days), and the bucket count has no minimum:
`"1M1d"` yields 210 buckets, not the 30 the claim predicts, and `"1s2s"`
yields 0 buckets, below the claimed minimum of 1. -/
theorem window_spec_units_counterexample :
    frameBuckets "1M1d" = 210 ∧ (210 : Int) ≠ 30 ∧
      frameBuckets "1s2s" = 0 ∧ ¬ (1 : Int) ≤ 0 := by
  exact ⟨by decide, by decide, by decide, by decide⟩

/-- C5 (amended): the window specification parses as
`<totalNum><totalUnit><intervalNum><intervalUnit>` with units s=second,
m=minute, h=hour, d=24h, w=7d, M=30 weeks (210d), y=365 weeks (2555d);
a missing or unparsable interval defaults to 1 minute, a missing or
unparsable total to interval × 15, and the bucket count is the truncated
quotient total/interval with no minimum. Stated as agreement with an
independent spec-side rendering of those words. -/
theorem window_spec_parse_amended (frame : String) :
    frameInterval frame = specInterval frame ∧
      frameBuckets frame = specBuckets frame :=
  ⟨frameInterval_eq_spec frame, frameBuckets_eq_spec frame⟩

/-- C6 (counterexample): construction indeed silently succeeds on `"1s2s"`
(total smaller than interval), but the resulting window has zero buckets
and the very first `Add` panics (`ts.samples[0]` on an empty slice); and
construction itself panics on `"1m-1m"` (negative bucket count passed to
`make`). -/
theorem window_construction_safety_counterexample :
    (newTimeseries (0 : ℚ) "1s2s").isSome = true ∧
      ((newTimeseries (0 : ℚ) "1s2s").bind (fun ts => tsAdd id id 0 ts)) = none ∧
      newTimeseries (0 : ℚ) "1m-1m" = none := by
  exact ⟨by decide, by decide, by decide⟩

/-- C6 (amended): for every window specification whose computed bucket
count is at least 1, construction succeeds and `Add` (hence also `Reset`
and `Snapshot`, which are total) completes without panicking, for any
bucket kind, time, and well-typed input. -/
theorem window_ops_safe_of_pos_buckets (σ : Type) (init : σ) (reset addf : σ → σ)
    (frame : String) (t : Int) (h : 1 ≤ frameBuckets frame) :
    ∃ ts, newTimeseries init frame = some ts ∧
      (tsAdd reset addf t ts).isSome = true := by
  refine ⟨⟨0, frameInterval frame, List.replicate (frameBuckets frame).toNat init⟩,
    ?_, ?_⟩
  · rw [newTimeseries]
    rw [if_neg (by omega)]
  · have hlen : (tsRoll reset t
        (⟨0, frameInterval frame,
          List.replicate (frameBuckets frame).toNat init⟩ : Timeseries σ)).samples.length =
        (frameBuckets frame).toNat := by
      rw [tsRoll_length]
      simp
    rw [tsAdd]
    cases hsam : (tsRoll reset t
        (⟨0, frameInterval frame,
          List.replicate (frameBuckets frame).toNat init⟩ : Timeseries σ)).samples with
    | nil =>
      rw [hsam] at hlen
      simp at hlen
      omega
    | cons s rest => rfl

/-- Witness for C6 (amended) on the specification `"3s1s"`. -/
theorem window_ops_safe_of_pos_buckets_witness :
    1 ≤ frameBuckets "3s1s" ∧
      ∃ ts, newTimeseries (0 : ℚ) "3s1s" = some ts ∧
        (tsAdd id id 0 ts).isSome = true :=
  ⟨by decide, window_ops_safe_of_pos_buckets ℚ 0 id id "3s1s" 0 (by decide)⟩

/-- C8: serializing a window twice at the same instant with no intervening
`Add` produces identical output (and identical post-snapshot state): the
roll performed by the first snapshot leaves zero ticks for the second. -/
theorem snapshot_idempotent (σ : Type) (mar : σ → Json) (reset : σ → σ) (t : Int)
    (ts : Timeseries σ) :
    tsMarshal mar reset t (tsMarshal mar reset t ts).2 = tsMarshal mar reset t ts := by
  show tsMarshal mar reset t (tsRoll reset t ts) = tsMarshal mar reset t ts
  rw [tsMarshal, tsMarshal, tsRoll_idem]

/-- C9: for any number of threads and any interleaving (schedule) of the
atomic load / compare-and-swap actions of their `Add(1)` retry loops, once
every thread has completed, the counter holds exactly the thread count: no
update is lost. -/
theorem counter_concurrent_adds_exact (k : ℕ) (sched : List ℕ)
    (h : ∀ th ∈ (casRun sched (casInit k)).threads, th = ThSt.done) :
    (casRun sched (casInit k)).val = (k : ℚ) := by
  have hinv := casRun_inv (casInit_inv k) sched
  rw [CasInv] at hinv
  have hall : countDone (casRun sched (casInit k)).threads =
      (casRun sched (casInit k)).threads.length := by
    rw [countDone]
    rw [List.countP_eq_length]
    intro a ha
    rw [h a ha]
    rfl
  have hlen : (casRun sched (casInit k)).threads.length = k := by
    rw [casRun_threads_length]
    simp [casInit]
  rw [hinv, hall, hlen]

/-- Witness for C9: two threads, scheduled strictly one after the other;
both complete and the counter reads exactly 2. -/
theorem counter_concurrent_adds_exact_witness :
    (∀ th ∈ (casRun [0, 0, 1, 1] (casInit 2)).threads, th = ThSt.done) ∧
      (casRun [0, 0, 1, 1] (casInit 2)).val = ((2 : ℕ) : ℚ) := by
  have hall : ∀ th ∈ (casRun [0, 0, 1, 1] (casInit 2)).threads, th = ThSt.done := by
    simp [casRun, casStep, casInit, List.foldl]
  exact ⟨hall, counter_concurrent_adds_exact 2 [0, 0, 1, 1] hall⟩

end Metric
